import Mathlib

/-!
Verification development for the dealing/aggregation core of the cgdkg NIDKG
implementation (`classgroup/src/nidkg_dealing.rs`).

The in-repo code under scrutiny is `pubcoeff_to_pks` and `aggregate_dealings`.
Scalars are elements of the BLS12-381 prime scalar field (`BIG` values handled
through `field_add_assign` / `field_mul`, which reduce modulo the group order),
modelled as `ZMod blsOrder`.  Group elements (`ECP` points of the prime-order
subgroup) are opaque to the core: every operation the core uses on them is
addition, the zero point and multi-scalar multiplication, so they are modelled
by an arbitrary additive commutative group that is a module over the scalar
field (the actual curve subgroup has prime order `blsOrder`, hence is such a
module).  Rust panics and aborts inside foreign calls (out-of-bounds `Vec`
indexing, `usize` underflow, a failing native decryption) are modelled
explicitly: a function that can panic returns an `Option`, with `none` for the
panic, and the aggregation entry point returns an `AggOutcome` distinguishing
a normal return, an `anyhow::bail!` error return, and a panic.
-/

/-- Order of the prime-order subgroup of BLS12-381 (`CURVE_Order` in the miracl
backend).  Modelled from the spec: FieldOps reduce modulo the scalar field
order. -/
def blsOrder : Nat := 0x73eda753299d7d483339d80809a1d80553bda402fffe5bfeffffffff00000001

/-- A scalar of the BLS12-381 scalar field: a `BIG` kept reduced mod `blsOrder`. -/
abbrev Scalar : Type := ZMod blsOrder

/-- Modelled from the spec: `field_mul` from `scalar_bls12381.rs` (not under
`src/`) — FieldOps multiplication, reducing mod the scalar field order. -/
def field_mul (a b : Scalar) : Scalar := a * b

/-- Modelled from the spec: `field_add_assign` from `scalar_bls12381.rs` (not
under `src/`) — FieldOps addition, reducing mod the scalar field order; the
mutable accumulator of the Rust code becomes explicit state passing. -/
def field_add_assign (acc sk : Scalar) : Scalar := acc + sk

section Embedding

variable {G : Type} [AddCommGroup G] [Module Scalar G]

/-- Modelled from the spec: GroupOps.multiScalarMul — `ECP::muln(n, points,
scalars)` computes the multi-scalar product of the first `n` points against the
first `n` scalars. -/
def muln (n : Nat) (points : List G) (scalars : List Scalar) : G :=
  (List.zip (points.take n) (scalars.take n)).foldl (fun acc ps => acc + ps.2 • ps.1) 0

/-- Modelled from the spec: a Ciphertext is an opaque encryption of one Scalar
addressed to one receiver; under this receiver's private key it either decrypts
to that Scalar or fails (malformed/foreign ciphertext).  A ciphertext is
modelled by its decryption outcome under the receiver's key, which is the only
thing the aggregation core observes about it. -/
inductive Ciphertext : Type where
  | valid (plain : Scalar) : Ciphertext
  | malformed : Ciphertext
deriving DecidableEq, Repr

/-- Modelled from the spec: `ClassGroupCipher.decrypt` (`cg_encryption.rs`, not
under `src/`) — yields the encrypted Scalar, failing on a malformed ciphertext
(the context and private-key arguments are absorbed into the `Ciphertext`
model above). -/
def decrypt : Ciphertext → Option Scalar
  | .valid s => some s
  | .malformed => none

/-- The `Dealing` struct: one dealer's commitment (`PublicCoefficients`, one
group element per coefficient), one ciphertext per receiver, and an opaque
sharing proof that the aggregation core never reads. -/
structure Dealing (G : Type) where
  public_coefficients : List G
  ciphertexts : List Ciphertext
  zk_proof_correct_sharing : Unit
deriving DecidableEq

/-- The function `pubcoeff_to_pks` (nidkg_dealing.rs lines 82-100): for each
receiver index `i` in `1..=total_nodes` it builds the power list
`[1, i, i^2, ...]` incrementally with `field_mul` and multiplies it against the
commitment with `ECP::muln`.  The inner loop `for _j in
0..public_coefficients.coefficients.len() - 2` computes its bound by `usize`
subtraction: when the commitment has fewer than 2 coefficients this underflows
(a panic in a debug build, a wrap-around bound of 2^64 - 1 in release, so the
call never returns a usable result in either build); that is modelled as
`none`. -/
def pubcoeff_to_pks (public_coefficients : List G) (total_nodes : Nat) :
    Option (List G) :=
  (List.range total_nodes).foldlM
    (fun pks j =>
      if 2 ≤ public_coefficients.length then
        let i_pow : Scalar := ((j + 1 : Nat) : Scalar)
        let i_pows : List Scalar :=
          (List.range (public_coefficients.length - 2)).foldl
            (fun acc _ => acc ++ [field_mul (acc.getLastD 0) i_pow]) [1, i_pow]
        some (pks ++ [muln public_coefficients.length public_coefficients i_pows])
      else none)
    ([] : List G)

/-- Modelled from the spec: `PublicCoefficients::from_poly_g(&Polynomial::zero(),
g)` (`public_coefficients.rs` / `polynomial.rs`, not under `src/`) — the
commitment to the zero polynomial, with no coefficients (the `is_empty` branch
of the aggregation loop, which replaces the accumulator by the first dealing's
commitment, is live exactly because the zero commitment is the empty
sequence). -/
def zero_commitment : List G := []

/-- Modelled from the spec: `PublicCoefficients::add_assign`
(`public_coefficients.rs`, not under `src/`) — pointwise group addition of two
commitments of equal length; a length mismatch is a failure (`none`). -/
def pc_add (a b : List G) : Option (List G) :=
  if a.length = b.length then some (List.zipWith (· + ·) a b) else none

/-- The commitment-accumulation loop of `aggregate_dealings` (lines 118-124):
starting from the zero commitment, an empty accumulator is replaced by the
dealing's commitment, a non-empty one is combined pointwise. -/
def fold_commitments (dealings : List (Dealing G)) : Option (List G) :=
  dealings.foldlM
    (fun acc d =>
      if acc.isEmpty then some d.public_coefficients
      else pc_add acc d.public_coefficients)
    (zero_commitment (G := G))

/-- One step of the share-decryption map (lines 128-134): index
`x.ciphertexts[node_index]` (an out-of-bounds index panics) and decrypt it
(a failing native decryption aborts). -/
def decrypt_share (node_index : Nat) (d : Dealing G) : Option Scalar :=
  (d.ciphertexts.get? node_index).bind decrypt

/-- One collect step of the share map closure `|x| { ...; Ok(dec_big) }` (lines
128-134): the closure always wraps its result in `Ok`, so folding it can never
turn an `Ok` accumulator into an `Err` one; a decryption failure or an
out-of-bounds ciphertext index aborts instead (the outer `none`). -/
def shares_step (node_index : Nat) (acc : Except Unit (List Scalar))
    (d : Dealing G) : Option (Except Unit (List Scalar)) :=
  (decrypt_share node_index d).map (fun s =>
    match acc with
    | .ok xs => Except.ok (xs ++ [s])
    | .error e => Except.error e)

/-- The collect `dealings.iter().map(|x| { ...; Ok(dec_big) }).collect::
<Result<Vec<BIG>, ()>>()` (lines 126-135). -/
def my_shares (dealings : List (Dealing G)) (node_index : Nat) :
    Option (Except Unit (List Scalar)) :=
  dealings.foldlM (shares_step node_index) (Except.ok [])

/-- The tuple returned by a successful `aggregate_dealings` call, in order:
`(accumulated_sk, accumulated_public_polynomial.coefficients[0], partial_pks,
accumulated_public_polynomial)` — the spec's AggregationResult with its
secret key share, group public key, per-node (partial) public keys and
combined commitment. -/
structure AggregationResult (G : Type) where
  secret_key_share : Scalar
  group_public_key : G
  per_node_public_keys : List G
  combined_commitment : List G
deriving DecidableEq

/-- Outcome of a call to `aggregate_dealings`: a normal `Ok` return, the
`anyhow::bail!("secret accumulation failed")` error return, or a Rust
panic/native abort. -/
inductive AggOutcome (G : Type) where
  | ok (result : AggregationResult G) : AggOutcome G
  | err (msg : String) : AggOutcome G
  | panic : AggOutcome G
deriving DecidableEq

/-- The function `aggregate_dealings` (lines 104-156): fold the commitments,
decrypt this node's share from every dealing and collect, on `Ok` accumulate
the shares with `field_add_assign` starting from `BIG::new()` (zero), on `Err`
bail, then evaluate the combined commitment at every receiver index and return
the tuple, whose second component indexes `coefficients[0]` (panicking when the
combined commitment is empty). -/
def aggregate_dealings (dealings : List (Dealing G)) (node_index : Nat)
    (total_nodes : Nat) : AggOutcome G :=
  match fold_commitments dealings with
  | none => AggOutcome.panic
  | some accumulated_public_polynomial =>
    match my_shares dealings node_index with
    | none => AggOutcome.panic
    | some (.error _) => AggOutcome.err "secret accumulation failed"
    | some (.ok shares) =>
      let accumulated_sk : Scalar := shares.foldl field_add_assign 0
      match pubcoeff_to_pks accumulated_public_polynomial total_nodes with
      | none => AggOutcome.panic
      | some pks =>
        match accumulated_public_polynomial.get? 0 with
        | none => AggOutcome.panic
        | some c0 =>
          AggOutcome.ok ⟨accumulated_sk, c0, pks, accumulated_public_polynomial⟩

/-- Spec-side evaluator of a commitment at index `i`: the multi-scalar product
Σ_k (i^k) · commitment[k] over the whole commitment. -/
def msm_eval (commitment : List G) (i : Scalar) : G :=
  (commitment.enum.map (fun kc => (i ^ kc.1) • kc.2)).sum

/-- Spec-side combined commitment: the pointwise sum of a list of commitments,
starting from the zero commitment of length `t` (`t` copies of the identity). -/
def pointwise_sum (t : Nat) (pcs : List (List G)) : List G :=
  pcs.foldl (fun a b => List.zipWith (· + ·) a b) (List.replicate t 0)

end Embedding

section Helpers

variable {G : Type} [AddCommGroup G] [Module Scalar G]

lemma foldlM_option_some {α β : Type} (f : β → α → β) :
    ∀ (l : List α) (init : β),
      List.foldlM (m := Option) (fun a x => some (f a x)) init l
        = some (List.foldl f init l) := by
  intro l
  induction l with
  | nil => intro init; rfl
  | cons x l ih => intro init; simp [ih]

lemma foldl_concat_map {α β : Type} (f : α → β) :
    ∀ (l : List α) (init : List β),
      l.foldl (fun acc x => acc ++ [f x]) init = init ++ l.map f := by
  intro l
  induction l with
  | nil => intro init; simp
  | cons x l ih => intro init; simp [ih]

omit [Module Scalar G] in
lemma foldl_add_eq_sum {α : Type} (f : α → G) :
    ∀ (l : List α) (b : G), l.foldl (fun a x => a + f x) b = b + (l.map f).sum := by
  intro l
  induction l with
  | nil => intro b; simp
  | cons x l ih => intro b; simp [ih, add_assoc]

lemma pow_fold (i : Scalar) :
    ∀ m : Nat,
      (List.range m).foldl (fun acc _ => acc ++ [field_mul (acc.getLastD 0) i]) [1, i]
        = (List.range (m + 2)).map (i ^ ·) := by
  intro m
  induction m with
  | zero =>
    simp [show List.range 2 = [0, 1] from rfl, pow_zero, pow_one]
  | succ m ih =>
    rw [List.range_succ, List.foldl_append, ih]
    rw [show m + 1 + 2 = (m + 2) + 1 from rfl, List.range_succ (m + 2)]
    rw [show List.range (m + 2) = List.range (m + 1) ++ [m + 1] from List.range_succ (m + 1)]
    simp [field_mul, pow_succ]

lemma zip_pow_sum (i : Scalar) :
    ∀ (pc : List G) (s : Nat),
      ((pc.zip ((List.range' s pc.length).map (i ^ ·))).map (fun p => p.2 • p.1)).sum
        = ((pc.enumFrom s).map (fun kc => (i ^ kc.1) • kc.2)).sum := by
  intro pc
  induction pc with
  | nil => intro s; simp
  | cons c pc ih => intro s; simp [List.range'_succ, ih (s + 1)]

lemma muln_eval (pc : List G) (i : Scalar) :
    muln pc.length pc ((List.range pc.length).map (i ^ ·)) = msm_eval pc i := by
  unfold muln msm_eval
  rw [List.take_length,
    List.take_of_length_le (by simp : ((List.range pc.length).map (i ^ ·)).length ≤ pc.length),
    foldl_add_eq_sum (fun p : G × Scalar => p.2 • p.1), zero_add,
    List.range_eq_range', zip_pow_sum i pc 0]
  rfl

theorem pubcoeff_to_pks_eq (pc : List G) (n : Nat) (h : 2 ≤ pc.length) :
    pubcoeff_to_pks pc n
      = some ((List.range n).map (fun j => msm_eval pc ((j + 1 : Nat) : Scalar))) := by
  have hfun :
      (fun (pks : List G) (j : Nat) =>
        if 2 ≤ pc.length then
          let i_pow : Scalar := ((j + 1 : Nat) : Scalar)
          let i_pows : List Scalar :=
            (List.range (pc.length - 2)).foldl
              (fun acc _ => acc ++ [field_mul (acc.getLastD 0) i_pow]) [1, i_pow]
          some (pks ++ [muln pc.length pc i_pows])
        else none)
      = fun (pks : List G) (j : Nat) =>
          some (pks ++ [msm_eval pc ((j + 1 : Nat) : Scalar)]) := by
    funext pks j
    rw [if_pos h]
    show some (pks ++ [muln pc.length pc _]) = _
    rw [pow_fold ((j + 1 : Nat) : Scalar) (pc.length - 2), Nat.sub_add_cancel h,
      muln_eval]
  unfold pubcoeff_to_pks
  rw [hfun, foldlM_option_some (fun pks j => pks ++ [msm_eval pc ((j + 1 : Nat) : Scalar)]),
    foldl_concat_map]
  simp

theorem pubcoeff_to_pks_underflow (pc : List G) (n : Nat) (hlen : pc.length ≤ 1)
    (hn : 1 ≤ n) : pubcoeff_to_pks pc n = none := by
  have h2 : ¬ 2 ≤ pc.length := by omega
  cases n with
  | zero => omega
  | succ m =>
    unfold pubcoeff_to_pks
    rw [List.range_succ_eq_map]
    simp [h2]

omit [AddCommGroup G] [Module Scalar G] in
lemma my_shares_aux (idx : Nat) :
    ∀ (l : List (Dealing G)) (xs : List Scalar),
      List.foldlM (shares_step idx) (Except.ok xs) l
        = (l.mapM (decrypt_share idx)).map (fun ss => Except.ok (xs ++ ss)) := by
  intro l
  induction l with
  | nil => intro xs; simp only [List.foldlM_nil, List.mapM_nil]; simp
  | cons d l ih =>
    intro xs
    cases hd : decrypt_share idx d with
    | none =>
      simp only [List.foldlM_cons, List.mapM_cons, shares_step, hd, Option.map_none',
        Option.bind_eq_bind, Option.none_bind]
    | some s =>
      simp only [List.foldlM_cons, List.mapM_cons, shares_step, hd, Option.map_some',
        Option.some_bind, Option.bind_eq_bind]
      rw [ih (xs ++ [s])]
      cases hl : l.mapM (decrypt_share idx) with
      | none => simp
      | some ss => simp

omit [AddCommGroup G] [Module Scalar G] in
lemma my_shares_eq (dealings : List (Dealing G)) (idx : Nat) :
    my_shares dealings idx
      = (dealings.mapM (decrypt_share idx)).map Except.ok := by
  unfold my_shares
  rw [my_shares_aux idx dealings []]
  cases dealings.mapM (decrypt_share idx) <;> simp

omit [AddCommGroup G] [Module Scalar G] in
lemma mapM_decrypt_total (idx : Nat) :
    ∀ (l : List (Dealing G)), (∀ d ∈ l, (decrypt_share idx d).isSome) →
      l.mapM (decrypt_share idx)
        = some (l.map (fun d => (decrypt_share idx d).getD 0)) := by
  intro l
  induction l with
  | nil => intro _; rfl
  | cons d l ih =>
    intro h
    have hd : decrypt_share idx d = some ((decrypt_share idx d).getD 0) := by
      rcases Option.isSome_iff_exists.mp (h d (by simp)) with ⟨s, hs⟩
      simp [hs]
    rw [List.mapM_cons, hd, ih (fun x hx => h x (by simp [hx]))]
    simp

omit [AddCommGroup G] [Module Scalar G] in
lemma mapM_decrypt_none (idx : Nat) :
    ∀ (l : List (Dealing G)), (∃ d ∈ l, decrypt_share idx d = none) →
      l.mapM (decrypt_share idx) = none := by
  intro l
  induction l with
  | nil => rintro ⟨d, hd, _⟩; cases hd
  | cons d l ih =>
    rintro ⟨x, hx, hnone⟩
    rcases List.mem_cons.mp hx with rfl | hx'
    · rw [List.mapM_cons, hnone]
      rfl
    · rw [List.mapM_cons, ih ⟨x, hx', hnone⟩]
      cases decrypt_share idx d <;> rfl

/-- Inversion of a successful `aggregate_dealings` call: a returned
`AggregationResult` consists exactly of the folded commitment, its evaluation
by `pubcoeff_to_pks`, its leading coefficient, and the accumulated decrypted
shares. -/
lemma aggregate_ok_elim (dealings : List (Dealing G)) (idx n : Nat)
    (r : AggregationResult G)
    (h : aggregate_dealings dealings idx n = AggOutcome.ok r) :
    fold_commitments dealings = some r.combined_commitment ∧
    pubcoeff_to_pks r.combined_commitment n = some r.per_node_public_keys ∧
    r.combined_commitment.get? 0 = some r.group_public_key ∧
    ∃ ss, dealings.mapM (decrypt_share idx) = some ss ∧
      r.secret_key_share = ss.foldl field_add_assign 0 := by
  unfold aggregate_dealings at h
  rw [my_shares_eq] at h
  cases hfc : fold_commitments dealings with
  | none => rw [hfc] at h; cases h
  | some acc =>
    rw [hfc] at h
    cases hms : dealings.mapM (decrypt_share idx) with
    | none => rw [hms] at h; cases h
    | some ss =>
      rw [hms] at h
      simp only [Option.map_some'] at h
      cases hpk : pubcoeff_to_pks acc n with
      | none => rw [hpk] at h; cases h
      | some pks =>
        rw [hpk] at h
        cases hc0 : acc.get? 0 with
        | none => rw [hc0] at h; cases h
        | some c0 =>
          rw [hc0] at h
          cases h
          exact ⟨rfl, hpk, hc0, ss, rfl, rfl⟩

omit [Module Scalar G] in
lemma zipWith_replicate_zero :
    ∀ l : List G, List.zipWith (· + ·) (List.replicate l.length (0 : G)) l = l := by
  intro l
  induction l with
  | nil => rfl
  | cons x l ih => simp [List.replicate_succ, ih]

omit [Module Scalar G] in
lemma fold_commitments_aux {t : Nat} :
    ∀ (ds : List (Dealing G)) (acc : List G), acc.length = t →
      (∀ x ∈ ds, x.public_coefficients.length = t) →
      List.foldlM
        (fun acc d =>
          if acc.isEmpty then some d.public_coefficients
          else pc_add acc d.public_coefficients)
        acc ds
      = some (ds.foldl
          (fun a b => List.zipWith (· + ·) a b.public_coefficients) acc) := by
  intro ds
  induction ds with
  | nil => intro acc _ _; rfl
  | cons d ds ih =>
    intro acc hacc hmem
    have hd : d.public_coefficients.length = t := hmem d (by simp)
    have hmem' : ∀ x ∈ ds, x.public_coefficients.length = t :=
      fun x hx => hmem x (by simp [hx])
    by_cases he : acc.isEmpty
    · have haccnil : acc = [] := List.isEmpty_iff.mp he
      have ht : t = 0 := by rw [← hacc, haccnil]; rfl
      have hdnil : d.public_coefficients = [] :=
        List.length_eq_zero.mp (by rw [hd, ht])
      simp only [List.foldlM_cons, he, if_pos, Option.some_bind, List.foldl_cons,
        Option.bind_eq_bind]
      rw [haccnil, hdnil]
      exact ih [] (by rw [ht]; rfl) hmem'
    · have hlen : acc.length = d.public_coefficients.length := by rw [hacc, hd]
      simp only [List.foldlM_cons, he, if_neg, Option.bind_eq_bind, List.foldl_cons,
        Bool.false_eq_true, not_false_eq_true, pc_add, if_pos hlen, Option.some_bind]
      exact ih _ (by simp [List.length_zipWith, hacc, hd]) hmem'

omit [Module Scalar G] in
/-- With dealings of a common commitment length, the commitment-accumulation
loop computes the pointwise sum of all the commitments. -/
lemma fold_commitments_eq {t : Nat} (d : Dealing G) (ds : List (Dealing G))
    (hmem : ∀ x ∈ d :: ds, x.public_coefficients.length = t) :
    fold_commitments (d :: ds)
      = some (pointwise_sum t ((d :: ds).map (·.public_coefficients))) := by
  have hd : d.public_coefficients.length = t := hmem d (by simp)
  have hmem' : ∀ x ∈ ds, x.public_coefficients.length = t :=
    fun x hx => hmem x (by simp [hx])
  unfold fold_commitments zero_commitment
  simp only [List.foldlM_cons, List.isEmpty_nil, if_pos, Option.some_bind,
    Option.bind_eq_bind]
  rw [fold_commitments_aux ds d.public_coefficients hd hmem']
  unfold pointwise_sum
  rw [List.map_cons, List.foldl_cons, ← hd, zipWith_replicate_zero, List.foldl_map]

lemma foldl_perm_of_right_comm {α β : Type} (f : β → α → β)
    (hf : ∀ a x y, f (f a x) y = f (f a y) x) {l l' : List α} (hp : l.Perm l') :
    ∀ b, l.foldl f b = l'.foldl f b := by
  induction hp with
  | nil => intro b; rfl
  | cons x _ ih => intro b; simp only [List.foldl_cons]; exact ih _
  | swap x y l => intro b; simp only [List.foldl_cons]; rw [hf]
  | trans _ _ ih1 ih2 => intro b; rw [ih1, ih2]

omit [Module Scalar G] in
lemma zipWith_add_right_comm :
    ∀ a b c : List G,
      List.zipWith (· + ·) (List.zipWith (· + ·) a b) c
        = List.zipWith (· + ·) (List.zipWith (· + ·) a c) b := by
  intro a
  induction a with
  | nil => intro b c; simp
  | cons x a ih =>
    intro b c
    cases b with
    | nil => simp
    | cons y b =>
      cases c with
      | nil => simp
      | cons z c => simp [ih b c, add_right_comm]

omit [Module Scalar G] in
lemma pointwise_sum_perm (t : Nat) {pcs pcs' : List (List G)}
    (hp : pcs.Perm pcs') : pointwise_sum t pcs = pointwise_sum t pcs' := by
  unfold pointwise_sum
  exact foldl_perm_of_right_comm _ (fun a x y => zipWith_add_right_comm a x y) hp _

/-- When some share fails to decrypt (or its ciphertext slot is missing), the
collect yields `none` and the whole call panics — in particular neither an
`AggregationResult` nor the (unreachable) `bail!` error is returned. -/
lemma aggregate_panic_of_mapM_none (dealings : List (Dealing G)) (idx n : Nat)
    (hms : dealings.mapM (decrypt_share idx) = none) :
    aggregate_dealings dealings idx n = AggOutcome.panic := by
  cases hfc : fold_commitments dealings with
  | none =>
    unfold aggregate_dealings
    rw [hfc]
  | some acc =>
    unfold aggregate_dealings
    rw [hfc, my_shares_eq, hms]
    rfl

end Helpers

section Claims

variable {G : Type} [AddCommGroup G] [Module Scalar G]

/-- C1: the claim says that when decryption of at least one dealing's
ciphertext addressed to this node fails, `aggregate_dealings` returns an error
and no AggregationResult.  What the code actually does: the map closure wraps
every decryption result in `Ok`, so the collected `Result` is never `Err` and
the `bail!("secret accumulation failed")` error return is unreachable; a
failing decryption aborts (panics) inside the call instead.  No partial result
is returned, but no error is returned either. -/
theorem aggregate_decryption_failure_panics (dealings : List (Dealing G))
    (idx n : Nat)
    (h : ∃ d ∈ dealings, ∃ ct, d.ciphertexts.get? idx = some ct ∧ decrypt ct = none) :
    aggregate_dealings dealings idx n = AggOutcome.panic := by
  rcases h with ⟨d, hd, ct, hct, hdec⟩
  have hnone : decrypt_share idx d = none := by
    show (d.ciphertexts.get? idx).bind decrypt = none
    rw [hct]
    exact hdec
  exact aggregate_panic_of_mapM_none dealings idx n
    (mapM_decrypt_none idx dealings ⟨d, hd, hnone⟩)

/-- C1 witness: a concrete two-dealing set whose second ciphertext for
receiver 0 is malformed makes the call panic. -/
theorem aggregate_decryption_failure_panics_witness :
    aggregate_dealings (G := Scalar)
      [⟨[(1 : Scalar), 2], [Ciphertext.valid 5], ()⟩,
       ⟨[(3 : Scalar), 4], [Ciphertext.malformed], ()⟩] 0 2
      = AggOutcome.panic :=
  aggregate_decryption_failure_panics
    [⟨[(1 : Scalar), 2], [Ciphertext.valid 5], ()⟩,
     ⟨[(3 : Scalar), 4], [Ciphertext.malformed], ()⟩] 0 2
    ⟨⟨[(3 : Scalar), 4], [Ciphertext.malformed], ()⟩, by decide,
      Ciphertext.malformed, by decide, rfl⟩

/-- C2: the claim says aggregating the empty set of dealings succeeds with the
zero commitment, zero secret share and identity group public key.  What the
code actually does: the accumulated commitment stays the (empty) zero
commitment, so for `total_nodes = 0` the final `coefficients[0]` indexes an
empty vector and panics, and for `total_nodes ≥ 1` the `len() - 2` bound in
`pubcoeff_to_pks` already underflows; the call never returns a result. -/
theorem aggregate_empty_input_panics (idx n : Nat) :
    aggregate_dealings (G := G) [] idx n = AggOutcome.panic := by
  cases n with
  | zero => rfl
  | succ m =>
    have h := pubcoeff_to_pks_underflow (G := G) [] (m + 1) (by simp) (by omega)
    simp [aggregate_dealings, fold_commitments, my_shares, zero_commitment, h]

/-- C3: the claim says `pubcoeff_to_pks` handles commitments of length `t ≤ 1`
without arithmetic underflow for every `total_nodes` and returns a result.
What the code actually does: as soon as one receiver index is processed
(`total_nodes ≥ 1`), the loop bound `coefficients.len() - 2` is computed by
`usize` subtraction and underflows for `t ≤ 1` (debug panic / release
wrap-around bound), so no result is returned. -/
theorem pubcoeff_underflow_low_threshold (pc : List G) (n : Nat)
    (hlen : pc.length ≤ 1) (hn : 1 ≤ n) : pubcoeff_to_pks pc n = none :=
  pubcoeff_to_pks_underflow pc n hlen hn

/-- C3 witness: the empty commitment with a single receiver already
underflows. -/
theorem pubcoeff_underflow_low_threshold_witness :
    pubcoeff_to_pks (G := Scalar) ([] : List Scalar) 1 = none :=
  pubcoeff_underflow_low_threshold ([] : List Scalar) 1 (by decide) (by decide)

/-- C4 counterexample: for a commitment of length `t = 1` (which the claim
includes via `t ≥ 1`) and `total_nodes = 2`, `pubcoeff_to_pks` returns no
sequence at all — the `len() - 2` loop bound underflows. -/
theorem pubcoeff_t_one_no_result :
    pubcoeff_to_pks (G := Scalar) [(1 : Scalar)] 2 = none := by decide

/-- C4 (amended to `t ≥ 2`): for every commitment of length `t ≥ 2` and every
`total_nodes = n`, `pubcoeff_to_pks` returns exactly `n` group elements whose
`(i-1)`-th entry, for every receiver index `i` in `1..=n`, is the multi-scalar
product Σ_k (i^k) · commitment[k], with the power sequence built incrementally
in the scalar field. -/
theorem pubcoeff_evaluates_commitment (pc : List G) (n : Nat)
    (h : 2 ≤ pc.length) :
    ∃ pks, pubcoeff_to_pks pc n = some pks ∧ pks.length = n ∧
      ∀ i, 1 ≤ i → i ≤ n →
        pks[i - 1]? = some (msm_eval pc ((i : Nat) : Scalar)) := by
  refine ⟨_, pubcoeff_to_pks_eq pc n h, by simp, ?_⟩
  intro i h1 hn
  rw [List.getElem?_map, List.getElem?_range (by omega : i - 1 < n)]
  simp only [Option.map_some']
  rw [Nat.sub_add_cancel h1]

/-- C4 witness: the commitment `[3, 5]` (t = 2) over two receivers. -/
theorem pubcoeff_evaluates_commitment_witness :
    ∃ pks, pubcoeff_to_pks (G := Scalar) [(3 : Scalar), 5] 2 = some pks ∧
      pks.length = 2 ∧
      ∀ i, 1 ≤ i → i ≤ 2 →
        pks[i - 1]? = some (msm_eval [(3 : Scalar), 5] ((i : Nat) : Scalar)) :=
  pubcoeff_evaluates_commitment [(3 : Scalar), 5] 2 (by decide)

/-- C5: for every set of dealings whose ciphertexts all decrypt successfully at
this node's index, the `secret_key_share` returned by `aggregate_dealings` is
the left fold of `field_add_assign` (addition reduced mod the scalar field
order after each step) over the decrypted scalars, starting from zero. -/
theorem aggregate_secret_share_is_sum (dealings : List (Dealing G))
    (idx n : Nat) (ss : List Scalar) (r : AggregationResult G)
    (hdec : dealings.mapM (decrypt_share idx) = some ss)
    (hok : aggregate_dealings dealings idx n = AggOutcome.ok r) :
    r.secret_key_share = ss.foldl field_add_assign 0 := by
  rcases aggregate_ok_elim dealings idx n r hok with ⟨-, -, -, ss', hms, hsk⟩
  rw [hdec] at hms
  cases hms
  exact hsk

/-- C5 witness: two dealings decrypting to 5 and 7 yield secret share
`(0 + 5) + 7 = 12`. -/
theorem aggregate_secret_share_is_sum_witness :
    (AggregationResult.secret_key_share (G := Scalar) ⟨12, 4, [10, 16], [4, 6]⟩)
      = [(5 : Scalar), 7].foldl field_add_assign 0 :=
  aggregate_secret_share_is_sum
    [⟨[(1 : Scalar), 2], [Ciphertext.valid 5], ()⟩,
     ⟨[(3 : Scalar), 4], [Ciphertext.valid 7], ()⟩] 0 2 [5, 7]
    ⟨12, 4, [10, 16], [4, 6]⟩ (by decide) (by decide)

/-- C6: for every non-empty set of dealings whose commitments share one length
`t`, the `combined_commitment` returned by `aggregate_dealings` is the
pointwise (component-wise group) sum of the dealings' commitments, starting
from the zero commitment of matching length. -/
theorem aggregate_combined_commitment_is_pointwise_sum {t : Nat}
    (d : Dealing G) (ds : List (Dealing G)) (idx n : Nat)
    (r : AggregationResult G)
    (hmem : ∀ x ∈ d :: ds, x.public_coefficients.length = t)
    (hok : aggregate_dealings (d :: ds) idx n = AggOutcome.ok r) :
    r.combined_commitment
      = pointwise_sum t ((d :: ds).map (·.public_coefficients)) := by
  rcases aggregate_ok_elim (d :: ds) idx n r hok with ⟨hfc, -, -, -⟩
  rw [fold_commitments_eq d ds hmem] at hfc
  exact (Option.some.inj hfc).symm

/-- C6 witness: commitments `[1, 2]` and `[3, 4]` combine to `[4, 6]`. -/
theorem aggregate_combined_commitment_is_pointwise_sum_witness :
    (AggregationResult.combined_commitment (G := Scalar)
        ⟨12, 4, [10, 16], [4, 6]⟩)
      = pointwise_sum 2 [[(1 : Scalar), 2], [(3 : Scalar), 4]] :=
  aggregate_combined_commitment_is_pointwise_sum
    ⟨[(1 : Scalar), 2], [Ciphertext.valid 5], ()⟩
    [⟨[(3 : Scalar), 4], [Ciphertext.valid 7], ()⟩] 0 2
    ⟨12, 4, [10, 16], [4, 6]⟩ (by decide) (by decide)

/-- C7: every successful `aggregate_dealings` call returns an
AggregationResult whose `group_public_key` is `combined_commitment[0]`, whose
partial public keys are exactly `pubcoeff_to_pks(combined_commitment,
total_nodes)`, and whose `i`-th partial public key (0-based) is the evaluation
Σ_k ((i+1)^k) · combined_commitment[k] for every `i < total_nodes`. -/
theorem aggregate_result_invariants (dealings : List (Dealing G)) (idx n : Nat)
    (r : AggregationResult G)
    (hok : aggregate_dealings dealings idx n = AggOutcome.ok r) :
    r.combined_commitment.get? 0 = some r.group_public_key ∧
    pubcoeff_to_pks r.combined_commitment n = some r.per_node_public_keys ∧
    ∀ i, i < n →
      r.per_node_public_keys[i]?
        = some (msm_eval r.combined_commitment ((i + 1 : Nat) : Scalar)) := by
  rcases aggregate_ok_elim dealings idx n r hok with ⟨-, hpk, hc0, -⟩
  refine ⟨hc0, hpk, ?_⟩
  intro i hi
  have h2 : 2 ≤ r.combined_commitment.length := by
    by_contra hlt
    rw [pubcoeff_to_pks_underflow _ n (by omega) (by omega)] at hpk
    cases hpk
  rw [pubcoeff_to_pks_eq _ n h2] at hpk
  rw [← Option.some.inj hpk, List.getElem?_map, List.getElem?_range hi]
  rfl

/-- C7 witness: the invariants hold on the concrete successful aggregation of
two dealings with combined commitment `[4, 6]`. -/
theorem aggregate_result_invariants_witness :
    ([(4 : Scalar), 6].get? 0
        = some (AggregationResult.group_public_key (G := Scalar)
            ⟨12, 4, [10, 16], [4, 6]⟩)) ∧
    pubcoeff_to_pks [(4 : Scalar), 6] 2 = some [10, 16] ∧
    ∀ i, i < 2 →
      ([(10 : Scalar), 16])[i]?
        = some (msm_eval [(4 : Scalar), 6] ((i + 1 : Nat) : Scalar)) :=
  aggregate_result_invariants
    [⟨[(1 : Scalar), 2], [Ciphertext.valid 5], ()⟩,
     ⟨[(3 : Scalar), 4], [Ciphertext.valid 7], ()⟩] 0 2
    ⟨12, 4, [10, 16], [4, 6]⟩ (by decide)

/-- C8: for dealings of a common commitment length that all decrypt at this
node's index, aggregating any permutation of the set yields the identical
AggOutcome (hence byte-identical AggregationResults under the canonical
encoding): the fold order does not affect the result. -/
theorem aggregate_order_independent {t : Nat}
    (dealings dealings' : List (Dealing G)) (idx n : Nat)
    (hp : dealings.Perm dealings')
    (hlen : ∀ d ∈ dealings, d.public_coefficients.length = t)
    (hdec : ∀ d ∈ dealings, (decrypt_share idx d).isSome) :
    aggregate_dealings dealings' idx n = aggregate_dealings dealings idx n := by
  cases dealings with
  | nil =>
    rw [(hp.symm).eq_nil]
  | cons d ds =>
    have hlen' : ∀ x ∈ dealings', x.public_coefficients.length = t :=
      fun x hx => hlen x (hp.mem_iff.mpr hx)
    have hdec' : ∀ x ∈ dealings', (decrypt_share idx x).isSome :=
      fun x hx => hdec x (hp.mem_iff.mpr hx)
    cases hde : dealings' with
    | nil =>
      have := hp.length_eq
      rw [hde] at this
      simp at this
    | cons e es =>
      subst hde
      have hfc := fold_commitments_eq d ds hlen
      have hfc' := fold_commitments_eq e es hlen'
      have hps :
          pointwise_sum t ((e :: es).map (·.public_coefficients))
            = pointwise_sum t ((d :: ds).map (·.public_coefficients)) :=
        pointwise_sum_perm t ((hp.map (·.public_coefficients)).symm)
      have hms := mapM_decrypt_total idx (d :: ds) hdec
      have hms' := mapM_decrypt_total idx (e :: es) hdec'
      have hsum :
          ((e :: es).map (fun x => (decrypt_share idx x).getD 0)).foldl
              field_add_assign 0
            = ((d :: ds).map (fun x => (decrypt_share idx x).getD 0)).foldl
              field_add_assign 0 :=
        (foldl_perm_of_right_comm field_add_assign
          (fun a x y => add_right_comm a x y)
          (hp.map (fun x => (decrypt_share idx x).getD 0)) 0).symm
      simp only [aggregate_dealings, my_shares_eq, hfc, hfc', hms, hms',
        Option.map_some', hps, hsum]

/-- C8 witness: swapping two concrete dealings leaves the aggregation outcome
unchanged. -/
theorem aggregate_order_independent_witness :
    aggregate_dealings (G := Scalar)
      [⟨[(3 : Scalar), 4], [Ciphertext.valid 7], ()⟩,
       ⟨[(1 : Scalar), 2], [Ciphertext.valid 5], ()⟩] 0 2
    = aggregate_dealings (G := Scalar)
      [⟨[(1 : Scalar), 2], [Ciphertext.valid 5], ()⟩,
       ⟨[(3 : Scalar), 4], [Ciphertext.valid 7], ()⟩] 0 2 :=
  aggregate_order_independent (t := 2)
    [⟨[(1 : Scalar), 2], [Ciphertext.valid 5], ()⟩,
     ⟨[(3 : Scalar), 4], [Ciphertext.valid 7], ()⟩]
    [⟨[(3 : Scalar), 4], [Ciphertext.valid 7], ()⟩,
     ⟨[(1 : Scalar), 2], [Ciphertext.valid 5], ()⟩] 0 2
    (List.Perm.swap
      (⟨[(3 : Scalar), 4], [Ciphertext.valid 7], ()⟩ : Dealing Scalar)
      (⟨[(1 : Scalar), 2], [Ciphertext.valid 5], ()⟩ : Dealing Scalar) [])
    (by decide) (by decide)

/-- C9: the claim says a commitment of length exactly 1 (t = 1, constant
polynomial) yields, for every `total_nodes ≥ 1`, identical partial public keys
equal to its sole element.  What the code actually does: the `len() - 2` loop
bound underflows for `t = 1`, so `pubcoeff_to_pks` returns no keys at all. -/
theorem pubcoeff_degenerate_threshold_no_result :
    pubcoeff_to_pks (G := Scalar) [(5 : Scalar)] 3 = none := by decide

/-- C10: `aggregate_dealings` indexes each dealing's ciphertext vector at
`node_index` with no bounds check: when every dealing has `node_index <
ciphertexts.len()` the lookup is in bounds, and when some dealing violates
this unchecked precondition the call panics — it is not reported as an
aggregation error (no `err` outcome, no result omitting the dealing). -/
theorem aggregate_ciphertext_index_unchecked (dealings : List (Dealing G))
    (idx n : Nat) :
    (∀ d ∈ dealings, idx < d.ciphertexts.length →
        (d.ciphertexts.get? idx).isSome) ∧
    ((∃ d ∈ dealings, d.ciphertexts.length ≤ idx) →
        aggregate_dealings dealings idx n = AggOutcome.panic) := by
  constructor
  · intro d _ hlt
    rw [List.get?_eq_get hlt]
    rfl
  · rintro ⟨d, hd, hle⟩
    have hnone : decrypt_share idx d = none := by
      show (d.ciphertexts.get? idx).bind decrypt = none
      rw [List.get?_eq_none.mpr hle]
      rfl
    exact aggregate_panic_of_mapM_none dealings idx n
      (mapM_decrypt_none idx dealings ⟨d, hd, hnone⟩)

/-- C10 witness: a single dealing with one ciphertext, addressed with
`node_index = 3`, makes the call panic rather than return an error. -/
theorem aggregate_ciphertext_index_unchecked_witness :
    aggregate_dealings (G := Scalar)
      [⟨[(1 : Scalar), 2], [Ciphertext.valid 9], ()⟩] 3 1
      = AggOutcome.panic := by
  have h := aggregate_ciphertext_index_unchecked (G := Scalar)
    [⟨[(1 : Scalar), 2], [Ciphertext.valid 9], ()⟩] 3 1
  exact h.2 ⟨⟨[(1 : Scalar), 2], [Ciphertext.valid 9], ()⟩, by decide, by decide⟩

end Claims
